import Mathlib

/-!
Verification development for the glacier cron scheduler
(`scheduler/cron.go`): the job registry state machine (`schedulerImpl`
with its `Add` / `Remove` / `Pause` / `Continue` / `Info` operations),
the execution-wrapper closure (`jobHandler`) built inside `Add`, and
`Job.Next`.

The schedule engine (robfig/cron) is an external collaborator; it is
modelled here by the interface the registry uses: `AddFunc` hands out
fresh entry ids (starting at 1, after a successful parse of the plan)
and `Remove` drops a live entry.  Times are seconds as `Nat`; the
engine's plan grammar is modelled from the spec as `@every Ns`.
-/

namespace Glacier

/-- Modelled from the spec: the Schedule Engine's parsed schedule, for
plans of the form `@every Ns`.  The engine itself is an external
collaborator; the spec only requires `parseNext` to yield ascending
trigger times, and `@every` delays shorter than one second are rounded
up to one second. -/
inductive Schedule where
  | every (sec : Nat)
deriving DecidableEq, Repr

/-- Next trigger time strictly after `t` (`sc.Next(lastTs)` in the Go
code); delays below one second round up to one second. -/
def Schedule.Next : Schedule → Nat → Nat
  | .every s, t => t + max s 1

/-- Digits of the interval, terminated by the final `s`. -/
def parseNum : List Char → Nat → Option Nat
  | [c], acc => if c = 's' then some acc else none
  | c :: rest, acc =>
      if c.isDigit then parseNum rest (acc * 10 + (c.toNat - 48)) else none
  | [], _ => none

/-- Modelled from the spec: the engine-side plan parser.  Accepts
`@every Ns` with at least one decimal digit; any other string is a
parse error. -/
def cronParse (plan : String) : Option Schedule :=
  match plan.data with
  | '@' :: 'e' :: 'v' :: 'e' :: 'r' :: 'y' :: ' ' :: c :: rest =>
      if c.isDigit then (parseNum rest (c.toNat - 48)).map (.every ·) else none
  | _ => none

/-- Job record from `scheduler/cron.go` (`type Job struct`).  `ID` is
the `cron.EntryID` handed out by the engine (the engine draws ids from
a counter starting at 1, so id 0 is never a registration); the wrapped
callback `handler func()` is represented by an opaque token. -/
structure Job where
  ID : Nat
  Name : String
  Plan : String
  handler : Nat
  Paused : Bool
deriving DecidableEq, Repr

/-- Result of one call of `Job.Next`: the list of trigger times, a
parse error from the plan, or a Go runtime fault
(`make([]time.Time, nextNum)` with a negative length panics). -/
inductive NextResult where
  | ok (times : List Nat)
  | parseError
  | fault
deriving DecidableEq, Repr

/-- The loop body of `Job.Next`:
`lastTs = sc.Next(lastTs); results[i] = lastTs`. -/
def nextLoop (sc : Schedule) (lastTs : Nat) : Nat → List Nat
  | 0 => []
  | n + 1 =>
      let t := sc.Next lastTs
      t :: nextLoop sc t n

/-- Method `Job.Next` from `scheduler/cron.go`: parse the stored plan
(returning the parse error on failure), allocate a slice of length
`nextNum` (a Go `int`; a negative length faults at run time), then walk
the schedule forward from `now` (the value of `time.Now()` at the
call). -/
def Job.Next (job : Job) (now : Nat) (nextNum : Int) : NextResult :=
  match cronParse job.Plan with
  | none => .parseError
  | some sc =>
      if nextNum < 0 then .fault
      else .ok (nextLoop sc now nextNum.toNat)

/-- The schedule-engine state visible to the registry (`cron.Cron` as
used by `schedulerImpl`): the fresh-id counter, the set of live
entries, a trace of `Remove` calls, and which plan strings the engine
accepts. -/
structure CronEngine where
  nextId : Nat
  entries : List Nat
  removeCalls : List Nat
  acceptPlan : String → Bool

/-- Engine call `cron.AddFunc(plan, f)`: parsing the plan first; on a
parse error the engine is left untouched, otherwise a fresh id (the
incremented counter) is handed out and becomes a live entry. -/
def CronEngine.addFunc (e : CronEngine) (plan : String) :
    Option (Nat × CronEngine) :=
  if e.acceptPlan plan then
    some (e.nextId + 1,
      { e with
        nextId := e.nextId + 1
        entries := (e.nextId + 1) :: e.entries })
  else
    none

/-- Engine call `cron.Remove(id)`: the entry is no longer live; the
call itself is recorded in the trace. -/
def CronEngine.remove (e : CronEngine) (id : Nat) : CronEngine :=
  { e with
    entries := e.entries.filter (fun i => i != id)
    removeCalls := id :: e.removeCalls }

/-- Registry state of `schedulerImpl`: the `name -> *Job` map (as an
association list) together with the engine. -/
structure SchedState where
  jobs : List (String × Job)
  engine : CronEngine

/-- Map lookup on the association list. -/
def listLookup (jobs : List (String × Job)) (name : String) : Option Job :=
  (jobs.find? (fun p => p.1 == name)).map (fun p => p.2)

/-- The `c.jobs[name]` lookup. -/
def lookupJob (s : SchedState) (name : String) : Option Job :=
  listLookup s.jobs name

/-- In-place mutation of the record stored under `name` (the Go map
holds a pointer, so `reg.Paused = true` etc. updates the stored
record). -/
def updateJob (jobs : List (String × Job)) (name : String) (f : Job → Job) :
    List (String × Job) :=
  jobs.map (fun p => if p.1 == name then (p.1, f p.2) else p)

/-- The error values the registry operations return (`nil` is modelled
by `none`). -/
inductive SchedErr where
  | alreadyExists
  | notFound
  | registrationFailed
deriving DecidableEq, Repr

/-- `schedulerImpl.Add`: reject an existing name, otherwise register
the wrapped handler with the engine; on engine failure return the
wrapped error without inserting; on success insert a fresh, unpaused
record. -/
def SchedState.Add (s : SchedState) (name plan : String) (handler : Nat) :
    Option SchedErr × SchedState :=
  match lookupJob s name with
  | some _ => (some .alreadyExists, s)
  | none =>
      match s.engine.addFunc plan with
      | none => (some .registrationFailed, s)
      | some (id, e2) =>
          (none,
            { jobs := (name,
                { ID := id, Name := name, Plan := plan
                  handler := handler, Paused := false }) :: s.jobs
              engine := e2 })

/-- `schedulerImpl.Remove`: not-found error for an absent name;
otherwise delete the record and, only if the job was active, call the
engine's `Remove`. -/
def SchedState.Remove (s : SchedState) (name : String) :
    Option SchedErr × SchedState :=
  match lookupJob s name with
  | none => (some .notFound, s)
  | some reg =>
      let jobs2 := s.jobs.filter (fun p => p.1 != name)
      if reg.Paused then
        (none, { s with jobs := jobs2 })
      else
        (none, { jobs := jobs2, engine := s.engine.remove reg.ID })

/-- `schedulerImpl.Pause`: not-found error for an absent name; a no-op
on an already paused job; otherwise unregister the live entry and mark
the record paused (the `ID` field is left as it was). -/
def SchedState.Pause (s : SchedState) (name : String) :
    Option SchedErr × SchedState :=
  match lookupJob s name with
  | none => (some .notFound, s)
  | some reg =>
      if reg.Paused then
        (none, s)
      else
        (none,
          { jobs := updateJob s.jobs name (fun j => { j with Paused := true })
            engine := s.engine.remove reg.ID })

/-- `schedulerImpl.Continue`: not-found error for an absent name; a
no-op on an active job; otherwise re-register the stored plan and
handler, keeping the job paused if the engine rejects the plan. -/
def SchedState.Continue (s : SchedState) (name : String) :
    Option SchedErr × SchedState :=
  match lookupJob s name with
  | none => (some .notFound, s)
  | some reg =>
      if reg.Paused then
        match s.engine.addFunc reg.Plan with
        | none => (some .registrationFailed, s)
        | some (id, e2) =>
            (none,
              { jobs := updateJob s.jobs name
                  (fun j => { j with Paused := false, ID := id })
                engine := e2 })
      else
        (none, s)

/-- `schedulerImpl.Info`: a copy of the record, or a not-found
error. -/
def SchedState.Info (s : SchedState) (name : String) : Except SchedErr Job :=
  match lookupJob s name with
  | some job => .ok job
  | none => .error .notFound

/-- What a single invocation of the caller's handler does: return
cleanly, return an error value, or raise a fault. -/
inductive HandlerOutcome where
  | ok
  | errReturn
  | faults
deriving DecidableEq, Repr

/-- Observable result of one run of the wrapped closure. -/
structure WrapperResult where
  returnedNormally : Bool
  invoked : Bool
  errorLogged : Bool
  faultRecovered : Bool
deriving DecidableEq, Repr

/-- `c.resolver.ResolveWithError(hh.Handle)`: runs the handler; a fault
raised by the handler propagates out (`.error`), otherwise the
handler's explicitly returned error value, if any, comes back. -/
def resolveWithError : HandlerOutcome → Except Unit (Option Unit)
  | .faults => .error ()
  | .errReturn => .ok (some ())
  | .ok => .ok none

/-- The body of the `jobHandler` closure after the lock gate, before
the deferred `recover` is taken into account: `.error` is a fault
unwinding out of the body; the payload records whether a returned error
was logged. -/
def wrapperBody (outcome : HandlerOutcome) : Except Unit Bool :=
  match resolveWithError outcome with
  | .error u => .error u
  | .ok (some _) => .ok true
  | .ok none => .ok false

/-- The deferred `recover()` installed at the top of `jobHandler`: a
fault unwinding out of the body is caught and logged, turning the call
into a normal return; a normal return passes through. -/
def withRecover (r : Except Unit Bool) : WrapperResult :=
  match r with
  | .error _ =>
      { returnedNormally := true, invoked := true
        errorLogged := false, faultRecovered := true }
  | .ok logged =>
      { returnedNormally := true, invoked := true
        errorLogged := logged, faultRecovered := false }

/-- The `jobHandler` closure built inside `schedulerImpl.Add`.
`lockMgr` is `none` when no distribute-lock manager is configured, and
`some b` when one is configured and `HasLock()` returns `b`; when the
lock is configured but not held, the run is skipped before the handler
is touched. -/
def jobHandler (lockMgr : Option Bool) (outcome : HandlerOutcome) :
    WrapperResult :=
  if lockMgr == some false then
    { returnedNormally := true, invoked := false
      errorLogged := false, faultRecovered := false }
  else
    withRecover (wrapperBody outcome)

/-- The empty registry over a fresh engine. -/
def initState (accept : String → Bool) : SchedState :=
  { jobs := []
    engine := { nextId := 0, entries := [], removeCalls := [], acceptPlan := accept } }

/-- The engine's real acceptance test in this model: the plan
parses. -/
def realAccept (plan : String) : Bool :=
  (cronParse plan).isSome

/-- Registry states reachable from an empty registry by the four
mutating operations. -/
inductive Reachable : SchedState → Prop
  | init (accept : String → Bool) : Reachable (initState accept)
  | add (s : SchedState) (name plan : String) (h : Nat) :
      Reachable s → Reachable (s.Add name plan h).2
  | remove (s : SchedState) (name : String) :
      Reachable s → Reachable (s.Remove name).2
  | pause (s : SchedState) (name : String) :
      Reachable s → Reachable (s.Pause name).2
  | cont (s : SchedState) (name : String) :
      Reachable s → Reachable (s.Continue name).2

/-- Bookkeeping invariant tying the registry to the engine. -/
structure Inv (s : SchedState) : Prop where
  keysNodup : s.jobs.Pairwise (fun p q => p.1 ≠ q.1)
  idsNodup : s.jobs.Pairwise (fun p q => p.2.ID ≠ q.2.ID)
  idLe : ∀ p ∈ s.jobs, p.2.ID ≤ s.engine.nextId
  entriesLe : ∀ i ∈ s.engine.entries, i ≤ s.engine.nextId
  liveIff : ∀ p ∈ s.jobs, (p.2.ID ∈ s.engine.entries ↔ p.2.Paused = false)

/-! ### List helper lemmas -/

theorem pairwise_and {α : Type} {R S : α → α → Prop} {l : List α}
    (hR : l.Pairwise R) (hS : l.Pairwise S) :
    l.Pairwise (fun a b => R a b ∧ S a b) := by
  induction l with
  | nil => exact List.Pairwise.nil
  | cons a t ih =>
      rw [List.pairwise_cons] at hR hS ⊢
      exact ⟨fun b hb => ⟨hR.1 b hb, hS.1 b hb⟩, ih hR.2 hS.2⟩

theorem pairwise_strengthen {α : Type} {R S : α → α → Prop} {l : List α}
    (hR : l.Pairwise R) (h : ∀ a ∈ l, ∀ b ∈ l, R a b → S a b) :
    l.Pairwise S := by
  induction l with
  | nil => exact List.Pairwise.nil
  | cons a t ih =>
      rw [List.pairwise_cons] at hR ⊢
      refine ⟨fun b hb => h a (by simp) b (by simp [hb]) (hR.1 b hb), ?_⟩
      exact ih hR.2 fun x hx y hy => h x (by simp [hx]) y (by simp [hy])

theorem ne_of_pairwise_ne {α β : Type} (f : α → β) {l : List α} {a b : α}
    (hp : l.Pairwise (fun x y => f x ≠ f y)) (ha : a ∈ l) (hb : b ∈ l)
    (hab : a ≠ b) : f a ≠ f b := by
  have hsymm : Symmetric (fun x y : α => f x ≠ f y) := fun x y h => h.symm
  exact hp.forall hsymm ha hb hab

theorem listLookup_eq_none {jobs : List (String × Job)} {name : String} :
    listLookup jobs name = none ↔ ∀ p ∈ jobs, p.1 ≠ name := by
  simp [listLookup, List.find?_eq_none]

theorem listLookup_mem {jobs : List (String × Job)} {name : String} {j : Job}
    (h : listLookup jobs name = some j) : (name, j) ∈ jobs := by
  unfold listLookup at h
  rw [Option.map_eq_some'] at h
  obtain ⟨p, hfind, hval⟩ := h
  have hmem := List.mem_of_find?_eq_some hfind
  have hkey : p.1 = name := by
    have := List.find?_some hfind
    simpa using this
  have : p = (name, j) := by
    cases p
    simp only at hkey hval
    simp [hkey, hval]
  exact this ▸ hmem

theorem listLookup_unique {jobs : List (String × Job)} {name : String} {j : Job}
    (hnd : jobs.Pairwise (fun p q => p.1 ≠ q.1))
    (hl : listLookup jobs name = some j) :
    ∀ p ∈ jobs, p.1 = name → p = (name, j) := by
  induction jobs with
  | nil => simp [listLookup] at hl
  | cons q t ih =>
      rw [List.pairwise_cons] at hnd
      intro p hp hpname
      by_cases hq : q.1 = name
      · have hfind : listLookup (q :: t) name = some q.2 := by
          unfold listLookup
          rw [List.find?_cons_of_pos _ (by simpa using hq)]
          rfl
        have hj : q.2 = j := by
          rw [hfind] at hl
          exact Option.some.inj hl
        rcases List.mem_cons.mp hp with rfl | hpt
        · cases p
          simp only at hq hj
          simp [hq, hj]
        · exact absurd (hq.trans hpname.symm) (hnd.1 p hpt)
      · have hl2 : listLookup t name = some j := by
          unfold listLookup at hl ⊢
          rwa [List.find?_cons_of_neg _ (by simpa using hq)] at hl
        rcases List.mem_cons.mp hp with rfl | hpt
        · exact absurd hpname hq
        · exact ih hnd.2 hl2 p hpt hpname

theorem listLookup_update_self (jobs : List (String × Job)) (name : String)
    (f : Job → Job) :
    listLookup (updateJob jobs name f) name = (listLookup jobs name).map f := by
  induction jobs with
  | nil => rfl
  | cons q t ih =>
      by_cases hq : q.1 = name
      · unfold updateJob listLookup
        simp only [List.map_cons]
        rw [if_pos (by simpa using hq)]
        rw [List.find?_cons_of_pos _ (by simpa using hq),
          List.find?_cons_of_pos _ (by simpa using hq)]
        rfl
      · unfold updateJob listLookup
        simp only [List.map_cons]
        rw [if_neg (by simpa using hq)]
        rw [List.find?_cons_of_neg _ (by simpa using hq),
          List.find?_cons_of_neg _ (by simpa using hq)]
        exact ih

theorem listLookup_filter_self (jobs : List (String × Job)) (name : String) :
    listLookup (jobs.filter (fun p => p.1 != name)) name = none := by
  rw [listLookup_eq_none]
  intro p hp
  have := (List.mem_filter.mp hp).2
  simpa using this

theorem updateJob_keys (jobs : List (String × Job)) (name : String)
    (f : Job → Job) :
    (updateJob jobs name f).map (fun p => p.1) = jobs.map (fun p => p.1) := by
  unfold updateJob
  rw [List.map_map]
  apply List.map_congr_left
  intro p _
  by_cases hq : p.1 = name
  · simp [hq]
  · simp [Function.comp, if_neg (by simpa using hq)]

/-! ### Engine and update facts -/

theorem addFunc_some {e : CronEngine} {plan : String} {id : Nat}
    {e2 : CronEngine} (h : e.addFunc plan = some (id, e2)) :
    id = e.nextId + 1 ∧ e2.nextId = e.nextId + 1 ∧
    e2.entries = id :: e.entries ∧ e2.removeCalls = e.removeCalls ∧
    e2.acceptPlan = e.acceptPlan ∧ e.acceptPlan plan = true := by
  unfold CronEngine.addFunc at h
  split at h
  · injection h with h1
    rw [Prod.mk.injEq] at h1
    obtain ⟨h2, h3⟩ := h1
    subst h2
    subst h3
    exact ⟨rfl, rfl, rfl, rfl, rfl, by assumption⟩
  · cases h

theorem updatePair_fst (name : String) (f : Job → Job) (p : String × Job) :
    (if p.1 == name then (p.1, f p.2) else p).1 = p.1 := by
  split <;> rfl

theorem updatePair_id (name : String) (f : Job → Job)
    (hf : ∀ j, (f j).ID = j.ID) (p : String × Job) :
    (if p.1 == name then (p.1, f p.2) else p).2.ID = p.2.ID := by
  split
  · exact hf p.2
  · rfl

/-! ### Branch equations for the registry operations -/

theorem Add_eq_existing {s : SchedState} {name plan : String} {h : Nat}
    {j : Job} (hl : lookupJob s name = some j) :
    s.Add name plan h = (some .alreadyExists, s) := by
  simp [SchedState.Add, hl]

theorem Add_eq_reject {s : SchedState} {name plan : String} {h : Nat}
    (hl : lookupJob s name = none) (ha : s.engine.addFunc plan = none) :
    s.Add name plan h = (some .registrationFailed, s) := by
  simp [SchedState.Add, hl, ha]

theorem Add_eq_ok {s : SchedState} {name plan : String} {h : Nat}
    {id : Nat} {e2 : CronEngine} (hl : lookupJob s name = none)
    (ha : s.engine.addFunc plan = some (id, e2)) :
    s.Add name plan h = (none,
      { jobs := (name,
          { ID := id, Name := name, Plan := plan
            handler := h, Paused := false }) :: s.jobs
        engine := e2 }) := by
  simp [SchedState.Add, hl, ha]

theorem Remove_eq_missing {s : SchedState} {name : String}
    (hl : lookupJob s name = none) :
    s.Remove name = (some .notFound, s) := by
  simp [SchedState.Remove, hl]

theorem Remove_eq_paused {s : SchedState} {name : String} {reg : Job}
    (hl : lookupJob s name = some reg) (hp : reg.Paused = true) :
    s.Remove name =
      (none, { s with jobs := s.jobs.filter (fun p => p.1 != name) }) := by
  simp [SchedState.Remove, hl, hp]

theorem Remove_eq_active {s : SchedState} {name : String} {reg : Job}
    (hl : lookupJob s name = some reg) (hp : reg.Paused = false) :
    s.Remove name =
      (none, { jobs := s.jobs.filter (fun p => p.1 != name)
               engine := s.engine.remove reg.ID }) := by
  simp [SchedState.Remove, hl, hp]

theorem Pause_eq_missing {s : SchedState} {name : String}
    (hl : lookupJob s name = none) :
    s.Pause name = (some .notFound, s) := by
  simp [SchedState.Pause, hl]

theorem Pause_eq_noop {s : SchedState} {name : String} {reg : Job}
    (hl : lookupJob s name = some reg) (hp : reg.Paused = true) :
    s.Pause name = (none, s) := by
  simp [SchedState.Pause, hl, hp]

theorem Pause_eq_active {s : SchedState} {name : String} {reg : Job}
    (hl : lookupJob s name = some reg) (hp : reg.Paused = false) :
    s.Pause name =
      (none, { jobs := updateJob s.jobs name (fun j => { j with Paused := true })
               engine := s.engine.remove reg.ID }) := by
  simp [SchedState.Pause, hl, hp]

theorem Continue_eq_missing {s : SchedState} {name : String}
    (hl : lookupJob s name = none) :
    s.Continue name = (some .notFound, s) := by
  simp [SchedState.Continue, hl]

theorem Continue_eq_noop {s : SchedState} {name : String} {reg : Job}
    (hl : lookupJob s name = some reg) (hp : reg.Paused = false) :
    s.Continue name = (none, s) := by
  simp [SchedState.Continue, hl, hp]

theorem Continue_eq_reject {s : SchedState} {name : String} {reg : Job}
    (hl : lookupJob s name = some reg) (hp : reg.Paused = true)
    (ha : s.engine.addFunc reg.Plan = none) :
    s.Continue name = (some .registrationFailed, s) := by
  simp [SchedState.Continue, hl, hp, ha]

theorem Continue_eq_ok {s : SchedState} {name : String} {reg : Job}
    {id : Nat} {e2 : CronEngine} (hl : lookupJob s name = some reg)
    (hp : reg.Paused = true) (ha : s.engine.addFunc reg.Plan = some (id, e2)) :
    s.Continue name =
      (none,
        { jobs := updateJob s.jobs name
            (fun j => { j with Paused := false, ID := id })
          engine := e2 }) := by
  simp [SchedState.Continue, hl, hp, ha]

theorem Info_eq_found {s : SchedState} {name : String} {j : Job}
    (hl : lookupJob s name = some j) :
    s.Info name = .ok j := by
  simp [SchedState.Info, hl]

theorem Info_eq_missing {s : SchedState} {name : String}
    (hl : lookupJob s name = none) :
    s.Info name = .error .notFound := by
  simp [SchedState.Info, hl]

/-! ### Invariant preservation -/

theorem inv_add (s : SchedState) (name plan : String) (h : Nat) (hs : Inv s) :
    Inv (s.Add name plan h).2 := by
  cases hl : lookupJob s name with
  | some j =>
      rw [Add_eq_existing hl]
      exact hs
  | none =>
      cases ha : s.engine.addFunc plan with
      | none =>
          rw [Add_eq_reject hl ha]
          exact hs
      | some pe =>
          obtain ⟨id, e2⟩ := pe
          obtain ⟨hid, hnext, hentries, _, _, _⟩ := addFunc_some ha
          subst hid
          rw [Add_eq_ok hl ha]
          dsimp only
          unfold lookupJob at hl
          have hnone := listLookup_eq_none.mp hl
          constructor
          · rw [List.pairwise_cons]
            refine ⟨fun p hp => ?_, hs.keysNodup⟩
            show name ≠ p.1
            exact fun hc => (hnone p hp) hc.symm
          · rw [List.pairwise_cons]
            refine ⟨fun p hp => ?_, hs.idsNodup⟩
            have := hs.idLe p hp
            show s.engine.nextId + 1 ≠ p.2.ID
            omega
          · intro p hp
            rcases List.mem_cons.mp hp with rfl | hp2
            · show s.engine.nextId + 1 ≤ e2.nextId
              omega
            · have := hs.idLe p hp2
              show p.2.ID ≤ e2.nextId
              omega
          · intro i hi
            rw [hentries] at hi
            show i ≤ e2.nextId
            rcases List.mem_cons.mp hi with rfl | hi2
            · omega
            · have := hs.entriesLe i hi2
              omega
          · intro p hp
            show p.2.ID ∈ e2.entries ↔ _
            rcases List.mem_cons.mp hp with rfl | hp2
            · simp [hentries]
            · rw [hentries, List.mem_cons]
              have hle := hs.idLe p hp2
              have hne : ¬ p.2.ID = s.engine.nextId + 1 := by omega
              rw [or_iff_right hne]
              exact hs.liveIff p hp2

theorem inv_remove (s : SchedState) (name : String) (hs : Inv s) :
    Inv (s.Remove name).2 := by
  cases hl : lookupJob s name with
  | none =>
      rw [Remove_eq_missing hl]
      exact hs
  | some reg =>
      have hmem := listLookup_mem hl
      cases hpause : reg.Paused with
      | true =>
          rw [Remove_eq_paused hl hpause]
          constructor
          · exact List.Pairwise.sublist (List.filter_sublist _) hs.keysNodup
          · exact List.Pairwise.sublist (List.filter_sublist _) hs.idsNodup
          · intro p hp
            exact hs.idLe p (List.mem_filter.mp hp).1
          · exact hs.entriesLe
          · intro p hp
            exact hs.liveIff p (List.mem_filter.mp hp).1
      | false =>
          rw [Remove_eq_active hl hpause]
          constructor
          · exact List.Pairwise.sublist (List.filter_sublist _) hs.keysNodup
          · exact List.Pairwise.sublist (List.filter_sublist _) hs.idsNodup
          · intro p hp
            exact hs.idLe p (List.mem_filter.mp hp).1
          · intro i hi
            have : i ∈ s.engine.entries := (List.mem_filter.mp hi).1
            exact hs.entriesLe i this
          · intro p hp
            obtain ⟨hp2, hpkey⟩ := List.mem_filter.mp hp
            have hkey : p.1 ≠ name := by simpa using hpkey
            have hne : p ≠ (name, reg) := fun hc => hkey (by rw [hc])
            have hid : p.2.ID ≠ reg.ID :=
              ne_of_pairwise_ne (fun q => q.2.ID) hs.idsNodup hp2 hmem hne
            show p.2.ID ∈ s.engine.entries.filter (fun i => i != reg.ID) ↔ _
            rw [List.mem_filter]
            have hbne : (p.2.ID != reg.ID) = true := by simpa using hid
            simp only [hbne, and_true]
            exact hs.liveIff p hp2

theorem inv_pause (s : SchedState) (name : String) (hs : Inv s) :
    Inv (s.Pause name).2 := by
  cases hl : lookupJob s name with
  | none =>
      rw [Pause_eq_missing hl]
      exact hs
  | some reg =>
      cases hpause : reg.Paused with
      | true =>
          rw [Pause_eq_noop hl hpause]
          exact hs
      | false =>
          rw [Pause_eq_active hl hpause]
          dsimp only
          have hmem := listLookup_mem hl
          have huniq := listLookup_unique hs.keysNodup hl
          constructor
          · unfold updateJob
            rw [List.pairwise_map]
            apply pairwise_strengthen hs.keysNodup
            intro a _ b _ hab
            split <;> split <;> exact hab
          · unfold updateJob
            rw [List.pairwise_map]
            apply pairwise_strengthen hs.idsNodup
            intro a _ b _ hab
            split <;> split <;> exact hab
          · intro q hq
            obtain ⟨p, hp, rfl⟩ := List.mem_map.mp hq
            split <;> exact hs.idLe p hp
          · intro i hi
            have : i ∈ s.engine.entries := (List.mem_filter.mp hi).1
            exact hs.entriesLe i this
          · intro q hq
            obtain ⟨p, hp, rfl⟩ := List.mem_map.mp hq
            by_cases hkey : p.1 = name
            · have hpeq : p = (name, reg) := huniq p hp hkey
              subst hpeq
              simp [CronEngine.remove, List.mem_filter]
            · have hne : p ≠ (name, reg) := fun hc => hkey (by rw [hc])
              have hid : p.2.ID ≠ reg.ID :=
                ne_of_pairwise_ne (fun q => q.2.ID) hs.idsNodup hp hmem hne
              rw [if_neg (by simpa using hkey)]
              show p.2.ID ∈ s.engine.entries.filter (fun i => i != reg.ID) ↔ _
              rw [List.mem_filter]
              have hbne : (p.2.ID != reg.ID) = true := by simpa using hid
              simp only [hbne, and_true]
              exact hs.liveIff p hp

theorem inv_continue (s : SchedState) (name : String) (hs : Inv s) :
    Inv (s.Continue name).2 := by
  cases hl : lookupJob s name with
  | none =>
      rw [Continue_eq_missing hl]
      exact hs
  | some reg =>
      cases hpause : reg.Paused with
      | false =>
          rw [Continue_eq_noop hl hpause]
          exact hs
      | true =>
          cases ha : s.engine.addFunc reg.Plan with
          | none =>
              rw [Continue_eq_reject hl hpause ha]
              exact hs
          | some pe =>
              obtain ⟨id, e2⟩ := pe
              obtain ⟨hid, hnext, hentries, _, _, _⟩ := addFunc_some ha
              subst hid
              rw [Continue_eq_ok hl hpause ha]
              dsimp only
              have hmem := listLookup_mem hl
              have huniq := listLookup_unique hs.keysNodup hl
              constructor
              · unfold updateJob
                rw [List.pairwise_map]
                apply pairwise_strengthen hs.keysNodup
                intro a _ b _ hab
                split <;> split <;> exact hab
              · unfold updateJob
                rw [List.pairwise_map]
                apply pairwise_strengthen (pairwise_and hs.keysNodup hs.idsNodup)
                intro a hamem b hbmem hab
                by_cases hka : a.1 = name <;> by_cases hkb : b.1 = name
                · exact absurd (hka.trans hkb.symm) hab.1
                · have := hs.idLe b hbmem
                  rw [if_pos (by simpa using hka), if_neg (by simpa using hkb)]
                  show s.engine.nextId + 1 ≠ b.2.ID
                  omega
                · have := hs.idLe a hamem
                  rw [if_neg (by simpa using hka), if_pos (by simpa using hkb)]
                  show a.2.ID ≠ s.engine.nextId + 1
                  omega
                · rw [if_neg (by simpa using hka), if_neg (by simpa using hkb)]
                  exact hab.2
              · intro q hq
                obtain ⟨p, hp, rfl⟩ := List.mem_map.mp hq
                by_cases hkey : p.1 = name
                · rw [if_pos (by simpa using hkey)]
                  show s.engine.nextId + 1 ≤ e2.nextId
                  omega
                · rw [if_neg (by simpa using hkey)]
                  have := hs.idLe p hp
                  show p.2.ID ≤ e2.nextId
                  omega
              · intro i hi
                rw [hentries] at hi
                show i ≤ e2.nextId
                rcases List.mem_cons.mp hi with rfl | hi2
                · omega
                · have := hs.entriesLe i hi2
                  omega
              · intro q hq
                obtain ⟨p, hp, rfl⟩ := List.mem_map.mp hq
                by_cases hkey : p.1 = name
                · rw [if_pos (by simpa using hkey)]
                  simp [hentries]
                · rw [if_neg (by simpa using hkey)]
                  show p.2.ID ∈ e2.entries ↔ _
                  rw [hentries, List.mem_cons]
                  have hle := hs.idLe p hp
                  have hne : ¬ p.2.ID = s.engine.nextId + 1 := by omega
                  rw [or_iff_right hne]
                  exact hs.liveIff p hp

theorem reachable_inv {s : SchedState} (h : Reachable s) : Inv s := by
  induction h with
  | init accept => constructor <;> simp [initState]
  | add s name plan hh _ ih => exact inv_add s name plan hh ih
  | remove s name _ ih => exact inv_remove s name ih
  | pause s name _ ih => exact inv_pause s name ih
  | cont s name _ ih => exact inv_continue s name ih

/-! ### Facts about `Job.Next` -/

theorem addFunc_none {e : CronEngine} {plan : String}
    (hacc : e.acceptPlan plan = false) : e.addFunc plan = none := by
  simp [CronEngine.addFunc, hacc]

theorem addFunc_accept (e : CronEngine) (plan : String)
    (hacc : e.acceptPlan plan = true) :
    e.addFunc plan = some (e.nextId + 1,
      { e with
        nextId := e.nextId + 1
        entries := (e.nextId + 1) :: e.entries }) := by
  simp [CronEngine.addFunc, hacc]

theorem schedule_next_gt (sc : Schedule) (t : Nat) : t < sc.Next t := by
  cases sc with
  | every s =>
      show t < t + max s 1
      have : 1 ≤ max s 1 := le_max_right s 1
      omega

theorem nextLoop_length (sc : Schedule) :
    ∀ (n : Nat) (t : Nat), (nextLoop sc t n).length = n
  | 0, _ => rfl
  | n + 1, t => by
      show (sc.Next t :: nextLoop sc (sc.Next t) n).length = n + 1
      rw [List.length_cons, nextLoop_length sc n (sc.Next t)]

theorem nextLoop_chain (sc : Schedule) :
    ∀ (n : Nat) (t : Nat), List.Chain (· < ·) t (nextLoop sc t n)
  | 0, _ => List.Chain.nil
  | n + 1, t =>
      List.Chain.cons (schedule_next_gt sc t)
        (nextLoop_chain sc n (sc.Next t))

theorem nextLoop_chain' (sc : Schedule) (t : Nat) (n : Nat) :
    (nextLoop sc t n).Chain' (· < ·) := by
  cases n with
  | zero => exact List.chain'_nil
  | succ k =>
      show List.Chain' (· < ·) (sc.Next t :: nextLoop sc (sc.Next t) k)
      exact nextLoop_chain sc k (sc.Next t)

/-! ### Concrete states used as witnesses -/

/-- The running example job record, as inserted by a first `Add`. -/
def jobA : Job :=
  { ID := 1, Name := "a", Plan := "@every 5s", handler := 0, Paused := false }

/-- The empty registry over an engine accepting exactly the modelled
plan grammar. -/
def sEmpty : SchedState := initState realAccept

/-- The registry after `Add("a", "@every 5s", h0)`. -/
def sOne : SchedState := (sEmpty.Add "a" "@every 5s" 0).2

/-- The registry after `Add("a", ...)` then `Pause("a")`. -/
def sPaused : SchedState := (sOne.Pause "a").2

/-- A registry holding one paused job over an engine that rejects every
plan. -/
def sRejecting : SchedState :=
  { jobs := [("a", { jobA with Paused := true })]
    engine := { nextId := 1, entries := [], removeCalls := []
                acceptPlan := fun _ => false } }

/-! ### The claims -/

/-- C1: for every name, `Add(name, plan, handler)` fails with an
`AlreadyExists` error when a job with that name is already present in
the registry (paused or active — the check does not look at the paused
flag), and the failing second `Add` leaves the registry and engine
state exactly as they were. -/
theorem C1_add_already_exists (s : SchedState) (name plan : String)
    (h : Nat) (j : Job) (hl : lookupJob s name = some j) :
    s.Add name plan h = (some .alreadyExists, s) :=
  Add_eq_existing hl

/-- Witness for C1: a second `Add` under the taken name `a` fails with
`AlreadyExists` and returns the registry unchanged. -/
theorem C1_witness :
    lookupJob sOne "a" = some jobA ∧
    sOne.Add "a" "@every 7s" 1 = (some .alreadyExists, sOne) :=
  ⟨rfl, C1_add_already_exists sOne "a" "@every 7s" 1 jobA rfl⟩

/-- C2: a fault raised by the handler during a triggered run is caught
by the deferred `recover` inside the wrapper closure and never
propagates to the schedule engine: the wrapped closure returns normally
for every lock configuration and every handler outcome, so one faulting
run cannot prevent subsequent triggers of the same or other jobs. -/
theorem C2_wrapper_never_propagates :
    (∀ (lockMgr : Option Bool) (outcome : HandlerOutcome),
        (jobHandler lockMgr outcome).returnedNormally = true) ∧
    jobHandler none .faults =
      { returnedNormally := true, invoked := true
        errorLogged := false, faultRecovered := true } ∧
    jobHandler (some true) .faults =
      { returnedNormally := true, invoked := true
        errorLogged := false, faultRecovered := true } := by
  refine ⟨fun lockMgr outcome => ?_, rfl, rfl⟩
  cases lockMgr with
  | none => cases outcome <;> rfl
  | some b => cases b <;> cases outcome <;> rfl

/-- C3 (counterexample): the claim that a paused job's record carries
no engine handle — formalised as the handle field holding the engine's
never-assigned id `0` — is false: after `Add` then `Pause` on a
reachable state, `Info` still sees the old id `1` in the record. -/
theorem C3_counterexample :
    ¬ (∀ (s : SchedState), Reachable s → ∀ (name : String) (j : Job),
        lookupJob s name = some j → j.Paused = true → j.ID = 0) := by
  intro hclaim
  have h1 : Reachable sEmpty := Reachable.init realAccept
  have h2 : Reachable sOne := Reachable.add sEmpty "a" "@every 5s" 0 h1
  have h3 : Reachable sPaused := Reachable.pause sOne "a" h2
  have := hclaim sPaused h3 "a" { jobA with Paused := true } rfl rfl
  exact absurd this (by decide)

/-- C3 (amended): in every reachable registry state, a job's stored
engine id is a live engine registration if and only if the job is not
paused; the `ID` field itself is retained (not cleared) while the job
is paused. -/
theorem C3_live_iff_not_paused (s : SchedState) (hr : Reachable s)
    (name : String) (j : Job) (hl : lookupJob s name = some j) :
    j.ID ∈ s.engine.entries ↔ j.Paused = false := by
  have hinv := reachable_inv hr
  have hmem := listLookup_mem hl
  exact hinv.liveIff (name, j) hmem

/-- Witness for C3 (amended): in the reachable state after `Add` then
`Pause`, the paused record's stored id `1` is not live in the engine. -/
theorem C3_witness :
    lookupJob sPaused "a" = some { jobA with Paused := true } ∧
    ((jobA.ID ∈ sPaused.engine.entries) ↔
      ({ jobA with Paused := true } : Job).Paused = false) := by
  refine ⟨rfl, ?_⟩
  have h1 : Reachable sEmpty := Reachable.init realAccept
  have h2 : Reachable sOne := Reachable.add sEmpty "a" "@every 5s" 0 h1
  have h3 : Reachable sPaused := Reachable.pause sOne "a" h2
  exact C3_live_iff_not_paused sPaused h3 "a" { jobA with Paused := true } rfl

/-- C4: whenever the schedule engine rejects a registration, the
operation returns a `RegistrationFailed` error and leaves the registry
state unchanged: `Add` inserts no record, and `Continue` leaves the
job's record present and still paused. -/
theorem C4_registration_failure_atomic :
    (∀ (s : SchedState) (name plan : String) (h : Nat),
        lookupJob s name = none → s.engine.acceptPlan plan = false →
        s.Add name plan h = (some .registrationFailed, s)) ∧
    (∀ (s : SchedState) (name : String) (j : Job),
        lookupJob s name = some j → j.Paused = true →
        s.engine.acceptPlan j.Plan = false →
        s.Continue name = (some .registrationFailed, s)) := by
  constructor
  · intro s name plan h hl hacc
    exact Add_eq_reject hl (addFunc_none hacc)
  · intro s name j hl hp hacc
    exact Continue_eq_reject hl hp (addFunc_none hacc)

/-- Witness for C4: over an engine rejecting every plan, `Add` into an
empty registry and `Continue` of a paused job both return
`RegistrationFailed` with the state unchanged. -/
theorem C4_witness :
    (lookupJob (initState (fun _ => false)) "b" = none ∧
      (initState (fun _ => false)).engine.acceptPlan "@every 5s" = false ∧
      (initState (fun _ => false)).Add "b" "@every 5s" 0 =
        (some .registrationFailed, initState (fun _ => false))) ∧
    (lookupJob sRejecting "a" = some { jobA with Paused := true } ∧
      sRejecting.Continue "a" = (some .registrationFailed, sRejecting)) :=
  ⟨⟨rfl, rfl,
      C4_registration_failure_atomic.1 (initState (fun _ => false))
        "b" "@every 5s" 0 rfl rfl⟩,
   ⟨rfl,
      C4_registration_failure_atomic.2 sRejecting "a"
        { jobA with Paused := true } rfl rfl rfl⟩⟩

/-- C5: `Remove(n)` fails with `NotFound` if `n` is absent; otherwise
it deletes the record and calls the engine's unregistration exactly
when the job was active: removing a paused job leaves the engine's
`Remove`-call trace untouched, removing an active job appends its id
to it. -/
theorem C5_remove_unregisters_iff_active (s : SchedState) (name : String) :
    (lookupJob s name = none → s.Remove name = (some .notFound, s)) ∧
    (∀ j, lookupJob s name = some j → j.Paused = true →
      (s.Remove name).1 = none ∧
      lookupJob (s.Remove name).2 name = none ∧
      (s.Remove name).2.engine.removeCalls = s.engine.removeCalls) ∧
    (∀ j, lookupJob s name = some j → j.Paused = false →
      (s.Remove name).1 = none ∧
      lookupJob (s.Remove name).2 name = none ∧
      (s.Remove name).2.engine.removeCalls = j.ID :: s.engine.removeCalls) := by
  refine ⟨fun hl => Remove_eq_missing hl, ?_, ?_⟩
  · intro j hl hp
    rw [Remove_eq_paused hl hp]
    exact ⟨rfl, listLookup_filter_self s.jobs name, rfl⟩
  · intro j hl hp
    rw [Remove_eq_active hl hp]
    exact ⟨rfl, listLookup_filter_self s.jobs name, rfl⟩

/-- Witness for C5: removing an absent name fails with `NotFound`;
removing the paused job leaves the engine trace unchanged; removing the
active job appends id `1` to the trace. -/
theorem C5_witness :
    (lookupJob sEmpty "zzz" = none ∧
      sEmpty.Remove "zzz" = (some .notFound, sEmpty)) ∧
    (lookupJob sPaused "a" = some { jobA with Paused := true } ∧
      (sPaused.Remove "a").1 = none ∧
      lookupJob (sPaused.Remove "a").2 "a" = none ∧
      (sPaused.Remove "a").2.engine.removeCalls =
        sPaused.engine.removeCalls) ∧
    (lookupJob sOne "a" = some jobA ∧
      (sOne.Remove "a").1 = none ∧
      lookupJob (sOne.Remove "a").2 "a" = none ∧
      (sOne.Remove "a").2.engine.removeCalls =
        jobA.ID :: sOne.engine.removeCalls) :=
  ⟨⟨rfl, (C5_remove_unregisters_iff_active sEmpty "zzz").1 rfl⟩,
   ⟨rfl, (C5_remove_unregisters_iff_active sPaused "a").2.1
      { jobA with Paused := true } rfl rfl⟩,
   ⟨rfl, (C5_remove_unregisters_iff_active sOne "a").2.2 jobA rfl rfl⟩⟩

/-- C6: `Pause(n)` on an active job succeeds, removes the live engine
registration, and marks the record paused while record, plan and
callback stay resident: `Info(n)` still succeeds with `paused = true`
and the original plan, and when the engine accepts the stored plan a
subsequent `Continue(n)` succeeds without the caller re-supplying
anything. -/
theorem C6_pause_keeps_record (s : SchedState) (name : String) (j : Job)
    (hl : lookupJob s name = some j) (hp : j.Paused = false) :
    (s.Pause name).1 = none ∧
    lookupJob (s.Pause name).2 name = some { j with Paused := true } ∧
    j.ID ∉ (s.Pause name).2.engine.entries ∧
    (s.Pause name).2.Info name = .ok { j with Paused := true } ∧
    (s.engine.acceptPlan j.Plan = true →
      ((s.Pause name).2.Continue name).1 = none) := by
  rw [Pause_eq_active hl hp]
  dsimp only
  have hlook : lookupJob
      { jobs := updateJob s.jobs name (fun x => { x with Paused := true })
        engine := s.engine.remove j.ID } name =
      some { j with Paused := true } := by
    show listLookup
        (updateJob s.jobs name (fun x => { x with Paused := true })) name =
      some { j with Paused := true }
    rw [listLookup_update_self]
    rw [show listLookup s.jobs name = some j from hl]
    rfl
  refine ⟨rfl, hlook, ?_, Info_eq_found hlook, ?_⟩
  · intro hmem
    have := (List.mem_filter.mp hmem).2
    simp at this
  · intro hacc
    have ha := addFunc_accept (s.engine.remove j.ID) j.Plan hacc
    rw [Continue_eq_ok hlook rfl ha]

/-- Witness for C6: pausing the active job `a` keeps its record (with
the original plan) visible through `Info`, drops its engine entry, and
lets `Continue` succeed afterwards. -/
theorem C6_witness :
    lookupJob sOne "a" = some jobA ∧ jobA.Paused = false ∧
    ((sOne.Pause "a").1 = none ∧
      lookupJob (sOne.Pause "a").2 "a" = some { jobA with Paused := true } ∧
      jobA.ID ∉ (sOne.Pause "a").2.engine.entries ∧
      (sOne.Pause "a").2.Info "a" = .ok { jobA with Paused := true } ∧
      (sOne.engine.acceptPlan jobA.Plan = true →
        ((sOne.Pause "a").2.Continue "a").1 = none)) :=
  ⟨rfl, rfl, C6_pause_keeps_record sOne "a" jobA rfl rfl⟩

/-- C7: lock-gating — when a lock coordinator is configured and
`HasLock()` is false, the triggered run is skipped entirely (no handler
invocation, no error); when the lock is held, or no coordinator is
configured, the trigger invokes the handler. -/
theorem C7_lock_gating (outcome : HandlerOutcome) :
    jobHandler (some false) outcome =
      { returnedNormally := true, invoked := false
        errorLogged := false, faultRecovered := false } ∧
    (jobHandler (some true) outcome).invoked = true ∧
    (jobHandler none outcome).invoked = true := by
  refine ⟨rfl, ?_, ?_⟩ <;> cases outcome <;> rfl

/-- C8: for every job whose plan parses and every `n ≥ 0`, `Job.Next`
returns exactly `n` trigger timestamps in strictly ascending order; for
a plan that does not parse it returns the parse error. -/
theorem C8_next_count_ascending (job : Job) (now n : Nat) (sc : Schedule) :
    (cronParse job.Plan = some sc →
      job.Next now (n : Int) = .ok (nextLoop sc now n) ∧
      (nextLoop sc now n).length = n ∧
      (nextLoop sc now n).Chain' (· < ·)) ∧
    (cronParse job.Plan = none → job.Next now (n : Int) = .parseError) := by
  constructor
  · intro hp
    refine ⟨?_, nextLoop_length sc n now, nextLoop_chain' sc now n⟩
    simp only [Job.Next, hp]
    rw [if_neg (by omega), Int.toNat_natCast]
  · intro hp
    simp only [Job.Next, hp]

/-- Witness for C8: for plan `@every 5s`, `Job.Next` from start time 0
with `n = 3` returns exactly the three ascending timestamps 5, 10, 15. -/
theorem C8_witness :
    cronParse jobA.Plan = some (.every 5) ∧
    (jobA.Next 0 (3 : Int) = .ok (nextLoop (.every 5) 0 3) ∧
      (nextLoop (Schedule.every 5) 0 3).length = 3 ∧
      (nextLoop (Schedule.every 5) 0 3).Chain' (· < ·)) ∧
    nextLoop (Schedule.every 5) 0 3 = [5, 10, 15] :=
  ⟨rfl, (C8_next_count_ascending jobA 0 3 (.every 5)).1 rfl, rfl⟩

/-- C9 (counterexample): `Job.Next` is not determined by the job's plan
and `n` alone — it starts from `time.Now()`, so the same job and the
same `n` give different timestamps at different call times. -/
theorem C9_counterexample :
    ¬ (∀ (j : Job) (n : Int) (now1 now2 : Nat),
        j.Next now1 n = j.Next now2 n) := by
  intro hclaim
  have := hclaim jobA 1 0 100
  exact absurd this (by decide)

/-- C9 (amended): `Job.Next` is determined by the job's stored plan,
`n`, and the time of the call — it reads no other state, so two calls
with equal plans, equal `n` and an equal current time agree, whatever
the jobs' other fields. -/
theorem C9_determined_by_plan (j1 j2 : Job) (now : Nat) (n : Int)
    (hplan : j1.Plan = j2.Plan) : j1.Next now n = j2.Next now n := by
  unfold Job.Next
  rw [hplan]

/-- Witness for C9 (amended): two jobs sharing only the plan string
(ids, names, paused flags all different) produce identical `Next`
results at the same call time. -/
theorem C9_witness :
    jobA.Plan = ({ ID := 99, Name := "b", Plan := "@every 5s"
                   handler := 7, Paused := true } : Job).Plan ∧
    jobA.Next 0 2 = ({ ID := 99, Name := "b", Plan := "@every 5s"
                       handler := 7, Paused := true } : Job).Next 0 2 :=
  ⟨rfl, C9_determined_by_plan jobA
    { ID := 99, Name := "b", Plan := "@every 5s"
      handler := 7, Paused := true } 0 2 rfl⟩

/-- C10: with a syntactically valid plan and a negative `n`, `Job.Next`
neither errors nor returns an empty list — the negative-length slice
allocation faults; the parse-error return path is taken exactly for an
unparsable plan. -/
theorem C10_negative_n_faults (job : Job) (now : Nat) (n : Int)
    (sc : Schedule) :
    (n < 0 → cronParse job.Plan = some sc → job.Next now n = .fault) ∧
    (job.Next now n = .parseError ↔ cronParse job.Plan = none) := by
  constructor
  · intro hn hp
    simp only [Job.Next, hp]
    rw [if_pos hn]
  · cases hp : cronParse job.Plan with
    | none => simp [Job.Next, hp]
    | some sc2 =>
        simp only [Job.Next, hp]
        constructor
        · intro h
          exfalso
          split at h <;> simp at h
        · intro h
          simp at h

/-- Witness for C10: for the valid plan `@every 5s` and `n = -1`,
`Job.Next` faults instead of returning an error or an empty list. -/
theorem C10_witness :
    ((-1 : Int) < 0) ∧ cronParse jobA.Plan = some (.every 5) ∧
    jobA.Next 0 (-1) = .fault :=
  ⟨by decide, rfl,
    (C10_negative_n_faults jobA 0 (-1) (.every 5)).1 (by decide) rfl⟩

end Glacier
